import Mathlib

/-!  Verification of the sumo DOS helper module (vaspy/electronic_structure/dos.py).

The file gives a shallow embedding of the module's functions — `load_dos`
(reference-energy alignment, ISMEAR smearing-width shift, spin-orbit channel
removal), `get_pdos` / `get_element_pdos` (element / orbital / atom selection
and per-site aggregation), `write_files` and `sort_orbitals` (canonical-order
text output) — followed by theorems checking the specification's claims.

Modelling conventions:
* numpy float arrays are modelled as lists of exact rationals;
* python dicts are association lists with unique keys (insertion order kept;
  updating an existing key keeps its position, a new key is appended);
* a python `KeyError` (dict access on a missing key, e.g. a missing spin
  channel) is modelled by `Option`: the embedded function returns `none`
  exactly where the python code would raise;
* the data pymatgen parses from the vasprun file (band metallicity, Fermi
  energy, valence-band maximum, calculation parameters, per-site projected
  densities) is external to the repository and enters the model as input
  structures (`VaspData`, `CDos`); the pymatgen `Orbital` enumeration and the
  accessors `get_element_spd_dos` / `get_site_spd_dos` / `get_site_orbital_dos`
  are embedded from their (well-known, stable) pymatgen definitions because
  the module's selection logic is written against them.
-/

namespace SumoDos

/-- A density array for one spin channel (numpy float array, modelled as
exact rationals). -/
abbrev Dens := List ℚ

/-- Densities keyed by spin, modelling the `{Spin.up: array, Spin.down: array}`
dict held by a pymatgen `Dos`; the up channel is always present, the down
channel may be absent. -/
structure SpinDens where
  up : Dens
  down : Option Dens
deriving DecidableEq

/-- One atomic site: its element symbol (`site.specie`) and its projected
densities keyed by orbital name (`CompleteDos.pdos[site]`, keys being pymatgen
`Orbital` members, identified here by their name strings). -/
structure SiteData where
  element : String
  pdos : List (String × SpinDens)
deriving DecidableEq

/-- The parts of a pymatgen `CompleteDos` this module reads: the energy grid,
the total densities and the per-site projected densities, sites listed in the
structure's order. -/
structure CDos where
  energies : List ℚ
  densities : SpinDens
  sites : List SiteData
deriving DecidableEq

/-- Dict lookup in an association list (python `d[k]`; `none` when the key is
absent, where python raises `KeyError` / `k in d` is false). -/
def alookup {α : Type} : List (String × α) → String → Option α
  | [], _ => none
  | p :: t, k => if p.1 = k then some p.2 else alookup t k

/-- Element-wise sum of two density arrays (numpy `+` on equal-length
arrays). -/
def addDens (a b : Dens) : Dens := List.zipWith (· + ·) a b

/-- pymatgen `Dos.__add__` / `add_densities`: per-spin element-wise sum taken
over the spin keys of the left operand.  `none` models the `KeyError` raised
when the left operand has a down channel but the right one does not. -/
def addSpin (a b : SpinDens) : Option SpinDens :=
  match a.down, b.down with
  | none, _ => some ⟨addDens a.up b.up, none⟩
  | some x, some y => some ⟨addDens a.up b.up, some (addDens x y)⟩
  | some _, none => none

/-! ## `load_dos`: alignment, smearing-width shift, spin-orbit cleanup

`load_dos` (dos.py lines 54-92) first reads, through pymatgen, the band
structure and the complete DOS.  Those parsed inputs are modelled by
`VaspData`.  The Gaussian-broadening branch (`dos.get_smeared_vaspdos`,
lines 72-77) delegates entirely to pymatgen/scipy convolution and is outside
the module; the model covers the `gaussian=None` path on which that branch is
skipped. -/

/-- The inputs `load_dos` reads from the parsed vasprun: metallicity of the
band structure, Fermi energy, valence-band maximum energy, the `ISMEAR` and
`SIGMA` calculation parameters, the `LSORBIT` flag, and the complete DOS
data. -/
structure VaspData where
  is_metal : Bool
  efermi : ℚ
  vbm : ℚ
  ismear : ℤ
  sigma : ℚ
  lsorbit : Bool
  dos : CDos

/-- dos.py lines 58-66: the reference energy subtracted from the grid — the
Fermi energy for a metallic system, the valence-band maximum otherwise. -/
def zero_point (v : VaspData) : ℚ := if v.is_metal then v.efermi else v.vbm

/-- `dos.energies -= z` (numpy in-place subtraction over the grid). -/
def shiftEnergies (d : CDos) (z : ℚ) : CDos :=
  { d with energies := d.energies.map (fun e => e - z) }

/-- dos.py line 68: the DOS after the zero-point subtraction. -/
def aligned_dos (v : VaspData) : CDos := shiftEnergies v.dos (zero_point v)

/-- dos.py lines 69-70: `if vr.parameters[ISMEAR] in [-1, 0, 1]:
dos.energies -= vr.parameters[SIGMA]`. -/
def smear_shifted (v : VaspData) : CDos :=
  if v.ismear ∈ [(-1 : ℤ), 0, 1] then shiftEnergies (aligned_dos v) v.sigma
  else aligned_dos v

/-- `del densities[Spin.down]`: removal of the down channel; `none` models the
`KeyError` raised when the channel is absent. -/
def delDown (s : SpinDens) : Option SpinDens :=
  match s.down with
  | some _ => some ⟨s.up, none⟩
  | none => none

/-- The inner loop of dos.py lines 84-86: delete the down channel from every
orbital curve of one site's projected densities. -/
def stripPdos : List (String × SpinDens) → Option (List (String × SpinDens))
  | [] => some []
  | p :: t => do
    let s ← delDown p.2
    let rest ← stripPdos t
    pure ((p.1, s) :: rest)

/-- The outer loop of dos.py lines 84-86: delete the down channel from every
site's orbital curves. -/
def stripSites : List SiteData → Option (List SiteData)
  | [] => some []
  | sd :: t => do
    let pd ← stripPdos sd.pdos
    let rest ← stripSites t
    pure (SiteData.mk sd.element pd :: rest)

/-- dos.py lines 79-86: for a spin-orbit calculation, delete the down channel
from the total densities and from every per-site per-orbital curve. -/
def socStrip (d : CDos) : Option CDos := do
  let td ← delDown d.densities
  let sts ← stripSites d.sites
  pure { energies := d.energies, densities := td, sites := sts }

/-- dos.py lines 58-86 (the `gaussian=None` path): zero-point alignment, the
conditional smearing-width shift, then the spin-orbit channel removal when
`LSORBIT` is set. -/
def load_dos_core (v : VaspData) : Option CDos :=
  if v.lsorbit then socStrip (smear_shifted v) else some (smear_shifted v)

/-! ## `get_pdos` / `get_element_pdos`: selection and aggregation

dos.py lines 95-181.  The python filter arguments may each be `None` or a
possibly-empty dict/list; python truthiness (`None` and empty containers are
falsy) is modelled by `ltruthy` / `dtruthy`. -/

/-- An element's projected-DOS mapping: orbital name → aggregated curve
(a python dict, insertion-ordered). -/
abbrev PDosMap := List (String × SpinDens)

/-- Python truthiness of an optional list argument (`None` and `[]`/`{}` are
falsy). -/
def ltruthy {α : Type} : Option (List α) → Bool
  | none => false
  | some l => !l.isEmpty

/-- `name in lst` for an optional list argument (only consulted when the
argument is truthy). -/
def olmem (o : Option (List String)) (k : String) : Bool :=
  match o with
  | none => false
  | some l => decide (k ∈ l)

/-- `el in d` (key membership) for an optional dict argument. -/
def okey {α : Type} (o : Option (List (String × α))) (k : String) : Bool :=
  match o with
  | none => false
  | some d => (alookup d k).isSome

/-- The pymatgen `Orbital` enumeration (external dependency), in member order:
the exact lm-decomposed orbital names iterated by `for orb in Orbital` on
dos.py line 171. -/
def orbitalEnum : List String :=
  ["s", "py", "pz", "px", "dxy", "dyz", "dz2", "dxz", "dx2",
   "f_3", "f_2", "f_1", "f0", "f1", "f2", "f3"]

/-- `orb.name[0]` / pymatgen `Orbital.orbital_type`: the first character of an
orbital name, as a one-character string (python `name[0]`). -/
def shellOf (s : String) : String := String.mk (s.data.take 1)

/-- First-occurrence deduplication: the key order of a dict built by repeated
`d[k] = ...` insertions. -/
def dedupFirst (l : List String) : List String :=
  l.foldl (fun acc x => if x ∈ acc then acc else acc ++ [x]) []

/-- The key set of pymatgen `CompleteDos.get_element_spd_dos(el)` (external
dependency): the orbital types (shells) occurring among the projected
densities of the element's sites, in first-appearance order. -/
def element_spd_keys (dos : CDos) (el : String) : List String :=
  dedupFirst (((dos.sites.filter (fun sd => sd.element = el)).flatMap
    (fun sd => sd.pdos.map (fun p => shellOf p.1))))

/-- pymatgen `CompleteDos.get_site_spd_dos(site)[shell]` (external
dependency): the sum of the site's orbital curves of the given shell; `none`
models the `KeyError` when the site has no orbital of that shell (or the site
index is out of range). -/
def get_site_spd_dos (dos : CDos) (site : ℕ) (shell : String) : Option SpinDens :=
  match dos.sites[site]? with
  | none => none
  | some sd =>
    match sd.pdos.filter (fun p => shellOf p.1 = shell) with
    | [] => none
    | q :: rest => rest.foldlM (fun acc p => addSpin acc p.2) q.2

/-- pymatgen `CompleteDos.get_site_orbital_dos(site, orb)` (external
dependency): the site's curve for one exact orbital; `none` models the
`KeyError` on a missing orbital. -/
def get_site_orbital_dos (dos : CDos) (site : ℕ) (orb : String) : Option SpinDens :=
  match dos.sites[site]? with
  | none => none
  | some sd => alookup sd.pdos orb

/-- dos.py lines 166-169: the spd-level (non-decomposed) orbitals kept for one
site — those requested by the orbital filter (or all, when the filter is
falsy) that are not marked for lm-decomposition. -/
def spdList (dos : CDos) (el : String)
    (lm_orbitals orbitals : Option (List String)) : List String :=
  (element_spd_keys dos el).filter (fun name =>
    ((ltruthy orbitals && olmem orbitals name) || !ltruthy orbitals) &&
    ((ltruthy lm_orbitals && !olmem lm_orbitals name) || !ltruthy lm_orbitals))

/-- dos.py lines 171-172: the lm-decomposed orbitals — every `Orbital` member
whose shell letter is in the lm request. -/
def lmList (lm_orbitals : Option (List String)) : List String :=
  orbitalEnum.filter (fun o => ltruthy lm_orbitals && olmem lm_orbitals (shellOf o))

/-- Replace the value stored at a key, keeping the entry's position (python
dict update of an existing key). -/
def replaceVal {α : Type} (m : List (String × α)) (k : String) (s : α) :
    List (String × α) :=
  m.map (fun q => if q.1 = k then (k, s) else q)

/-- dos.py lines 175-176 and 179-180:
`el_dos[orb] = el_dos[orb] + pdos if orb in el_dos else pdos`.  Updating an
existing key keeps its dict position; a new key is appended; `none` models a
failing curve addition. -/
def updAdd (m : PDosMap) (k : String) (v : SpinDens) : Option PDosMap :=
  match alookup m k with
  | none => some (m ++ [(k, v)])
  | some old => (addSpin old v).map (fun s => replaceVal m k s)

/-- One `for orb in L` accumulation loop of `get_element_pdos`: fetch each
orbital's curve for the site and fold it into the mapping. -/
def passFold (fetch : String → Option SpinDens) (m : PDosMap) (L : List String) :
    Option PDosMap :=
  L.foldlM (fun m orb => do
    let p ← fetch orb
    updAdd m orb p) m

/-- dos.py lines 163-180, body of the `for site in sites` loop: the spd pass
followed by the lm pass for one site. -/
def processSite (dos : CDos) (el : String)
    (lm_orbitals orbitals : Option (List String)) (m : PDosMap) (site : ℕ) :
    Option PDosMap := do
  let m1 ← passFold (fun orb => get_site_spd_dos dos site orb) m
    (spdList dos el lm_orbitals orbitals)
  passFold (fun orb => get_site_orbital_dos dos site orb) m1 (lmList lm_orbitals)

/-- dos.py lines 143-181, `get_element_pdos`: aggregate the selected sites'
curves into one mapping (sites given as indices into the structure's site
list). -/
def get_element_pdos (dos : CDos) (el : String) (sites : List ℕ)
    (lm_orbitals orbitals : Option (List String)) : Option PDosMap :=
  sites.foldlM (processSite dos el lm_orbitals orbitals) []

/-- dos.py lines 132-133: the structure's sites of one element, in structure
order (as indices), giving the per-element zero-based index space. -/
def element_sites_idx (dos : CDos) (el : String) : List ℕ :=
  ((dos.sites.enum.filter (fun q => q.2.element = el)).map (fun q => q.1))

/-- dos.py lines 134-135: the element sites kept by the atoms filter —
`not atoms or (el in atoms and i in atoms[el])` with `i` the per-element
index. -/
def select_sites (dos : CDos) (el : String)
    (atoms : Option (List (String × List ℕ))) : List ℕ :=
  (((element_sites_idx dos el).enum.filter (fun q =>
      !ltruthy atoms || (okey atoms el &&
        decide (q.1 ∈ ((alookup (atoms.getD []) el).getD []))))).map (fun q => q.2))

/-- pymatgen `Structure.symbol_set` (external dependency): the distinct
element symbols of the structure.  (pymatgen returns them sorted; the order is
irrelevant to every per-element result proved here, and first-appearance order
is used.) -/
def symbol_set (dos : CDos) : List String :=
  dedupFirst (dos.sites.map (fun sd => sd.element))

/-- dos.py line 136: `lm_orbitals[el] if (lm_orbitals and el in lm_orbitals)
else None`. -/
def olmval (lm : Option (List (String × List String))) (el : String) :
    Option (List String) :=
  if ltruthy lm && okey lm el then alookup (lm.getD []) el else none

/-- dos.py lines 95-140, `get_pdos`: default the element filter to every
structure element, then per element (skipping those omitted by a truthy atoms
filter) select sites and aggregate. -/
def get_pdos (dos : CDos)
    (lm_orbitals : Option (List (String × List String)))
    (atoms : Option (List (String × List ℕ)))
    (elements : Option (List (String × Option (List String)))) :
    Option (List (String × PDosMap)) :=
  let elems := if !ltruthy elements
    then (symbol_set dos).map (fun s => (s, (none : Option (List String))))
    else elements.getD []
  elems.foldlM (fun pd p =>
    if ltruthy atoms && !okey atoms p.1 then pure pd
    else do
      let m ← get_element_pdos dos p.1 (select_sites dos p.1 atoms)
        (olmval lm_orbitals p.1) ((alookup elems p.1).getD none)
      pure (pd ++ [(p.1, m)])) []

/-! ## `write_files` and `sort_orbitals`

`write_files` (dos.py lines 184-228) emits one text file for the total DOS and
one per element of the projected mapping.  The model captures the data each
`np.savetxt` call receives: the header token list and the stacked numeric
rows.  File naming and the filesystem write itself are not modelled. -/

/-- dos.py lines 244-246: the canonical orbital order used by
`sort_orbitals`. -/
def sorted_orbitals : List String :=
  ["s", "p", "py", "pz", "px",
   "d", "dxy", "dyz", "dz2", "dxz", "dx2",
   "f", "f_3", "f_2", "f_1", "f_0", "f1", "f2", "f3"]

/-- dos.py lines 247-252: keep, in canonical order, the canonical orbitals
that occur among the mapping's keys. -/
def sort_orbitals (element_pdos : List (String × SpinDens)) : List String :=
  sorted_orbitals.filter (fun key => (alookup element_pdos key).isSome)

/-- `len(dos.densities)`: the number of spin channels present. -/
def numSpins (s : SpinDens) : ℕ := 1 + (match s.down with | some _ => 1 | none => 0)

/-- dos.py lines 195-198: the per-spin formatting triples
`[spin, sign, label]` — spin is modelled by `true` for up, `false` for
down. -/
def sdataOf (s : SpinDens) : List (Bool × ℤ × String) :=
  if numSpins s = 1 then [(true, 1, "")]
  else [(true, 1, "(up)"), (false, -1, "(down)")]

/-- `dos.densities[spin]`: channel access, `none` for the `KeyError` on a
missing channel. -/
def getDensity (s : SpinDens) (isUp : Bool) : Option Dens :=
  if isUp then some s.up else s.down

/-- `densities * sign`: numpy scalar multiplication of a density array. -/
def scaleDens (d : Dens) (sign : ℤ) : Dens := d.map (fun x => x * (sign : ℚ))

/-- `np.stack(cols, axis=1)` on equal-length 1-D arrays: row `i` of the result
collects entry `i` of every column.  (numpy raises on ragged input; the model
is used only with equal-length columns.) -/
def stack1 (cols : List (List ℚ)) : List (List ℚ) :=
  match cols with
  | [] => []
  | c :: _ => (List.range c.length).map (fun i => cols.filterMap (fun col => col[i]?))

/-- The `for spin, sign, label in sdata` loop body shared by both writers
(dos.py lines 202-204 and 217-219): collect one signed density column per
spin triple of one curve. -/
def innerCols (sd : List (Bool × ℤ × String)) (curve : SpinDens) :
    Option (List (List ℚ)) :=
  sd.foldlM (fun acc t => do
    let arr ← getDensity curve t.1
    pure (acc ++ [scaleDens arr t.2.1])) []

/-- dos.py lines 195-210: the header tokens and stacked rows passed to
`np.savetxt` for the total-DOS file. -/
def write_total (d : CDos) : Option (List String × List (List ℚ)) := do
  let cols ← innerCols (sdataOf d.densities) d.densities
  pure ("energy" :: (sdataOf d.densities).map (fun t => "dos" ++ t.2.2),
        stack1 (d.energies :: cols))

/-- dos.py lines 213-220: the header tokens and stacked rows passed to
`np.savetxt` for one element's projected-DOS file (`sdata` comes from the
total densities, as in the source). -/
def write_element (d : CDos) (el_pdos : List (String × SpinDens)) :
    Option (List String × List (List ℚ)) := do
  let cols ← (sort_orbitals el_pdos).foldlM (fun acc orb => do
    let curve ← alookup el_pdos orb
    let newcols ← innerCols (sdataOf d.densities) curve
    pure (acc ++ newcols)) []
  pure ("energy" :: (sort_orbitals el_pdos).flatMap
          (fun orb => (sdataOf d.densities).map (fun t => orb ++ t.2.2)),
        stack1 (d.energies :: cols))

/-- dos.py lines 54-92, `load_dos` (the `gaussian=None` path): the aligned
total DOS paired with the projected mapping — empty when `total_only` is
set. -/
def load_dos (v : VaspData)
    (elements : Option (List (String × Option (List String))))
    (lm_orbitals : Option (List (String × List String)))
    (atoms : Option (List (String × List ℕ)))
    (total_only : Bool) : Option (CDos × List (String × PDosMap)) := do
  let d ← load_dos_core v
  if total_only then pure (d, [])
  else do
    let pd ← get_pdos d lm_orbitals atoms elements
    pure (d, pd)

/-! ## Statement-side notions for the aggregation claims

The following definitions do not embed source code; they express the
specification's notions ("per-site contribution", "element-wise sum of
curves", "N times a curve") that the aggregation theorems relate to the
embedded functions. -/

/-- Combine an optional accumulated curve with an optional contribution:
absent operands pass through, two present curves are added element-wise. -/
def combineOpt (a b : Option SpinDens) : Option SpinDens :=
  match a, b with
  | none, b => b
  | some x, none => some x
  | some x, some y => addSpin x y

/-- The curve one site contributes to orbital label `k` in
`get_element_pdos`: the site's shell-summed curve for a kept spd orbital, the
site's exact-orbital curve for an lm-decomposed orbital, nothing
otherwise. -/
def siteContrib (dos : CDos) (el : String)
    (lm_orbitals orbitals : Option (List String)) (site : ℕ) (k : String) :
    Option SpinDens :=
  if k ∈ spdList dos el lm_orbitals orbitals then get_site_spd_dos dos site k
  else if k ∈ lmList lm_orbitals then get_site_orbital_dos dos site k
  else none

/-- `n` times a curve, element-wise on every channel. -/
def smulSpin (n : ℕ) (v : SpinDens) : SpinDens :=
  ⟨v.up.map (fun x => (n : ℚ) * x),
   v.down.map (fun dl => dl.map (fun x => (n : ℚ) * x))⟩

/-! ## Concrete example inputs used by witnesses and counterexamples -/

/-- A structure with a single "X" site carrying one s-orbital curve. -/
def exX : CDos :=
  CDos.mk [0, 1] (SpinDens.mk [1, 1] none)
    [SiteData.mk "X" [("s", SpinDens.mk [2, 3] none)]]

/-- A structure with two identical "A" sites carrying s and p orbitals. -/
def exA : CDos :=
  CDos.mk [0] (SpinDens.mk [1] none)
    [SiteData.mk "A" [("s", SpinDens.mk [1] none), ("py", SpinDens.mk [2] none),
       ("pz", SpinDens.mk [3] none), ("px", SpinDens.mk [4] none)],
     SiteData.mk "A" [("s", SpinDens.mk [1] none), ("py", SpinDens.mk [2] none),
       ("pz", SpinDens.mk [3] none), ("px", SpinDens.mk [4] none)]]

/-- A two-channel total DOS over two energy points (no sites). -/
def exW : CDos := CDos.mk [0, 1] (SpinDens.mk [2, 3] (some [4, 5])) []

/-! ### Helper lemmas for the spin-orbit strip -/

lemma pdosStrip_eq (l : List (String × SpinDens))
    (h : ∀ p ∈ l, p.2.down.isSome) :
    stripPdos l = some (l.map (fun p => (p.1, SpinDens.mk p.2.up none))) := by
  induction l with
  | nil => rfl
  | cons a t ih =>
    obtain ⟨x, hx⟩ := Option.isSome_iff_exists.mp (h a (List.mem_cons_self a t))
    have ht := ih (fun p hp => h p (List.mem_cons_of_mem a hp))
    simp [stripPdos, delDown, hx, ht]

lemma sitesStrip_eq (l : List SiteData)
    (h : ∀ sd ∈ l, ∀ p ∈ sd.pdos, p.2.down.isSome) :
    stripSites l =
      some (l.map (fun sd =>
        SiteData.mk sd.element (sd.pdos.map (fun p => (p.1, SpinDens.mk p.2.up none))))) := by
  induction l with
  | nil => rfl
  | cons a t ih =>
    have ha := pdosStrip_eq a.pdos (h a (List.mem_cons_self a t))
    have ht := ih (fun sd hsd => h sd (List.mem_cons_of_mem a hsd))
    simp [stripSites, ha, ht]

lemma smear_shifted_densities (v : VaspData) :
    (smear_shifted v).densities = v.dos.densities := by
  unfold smear_shifted aligned_dos shiftEnergies
  split <;> rfl

lemma smear_shifted_sites (v : VaspData) :
    (smear_shifted v).sites = v.dos.sites := by
  unfold smear_shifted aligned_dos shiftEnergies
  split <;> rfl

/-! ### Claims C4, C5, C6 -/

/-- C4: `load_dos` shifts every energy of the grid by subtracting a single
zero-point determined from the band structure — the Fermi energy for a
metallic system, otherwise the valence-band-maximum energy; every shifted
energy equals the corresponding unshifted energy minus that zero-point,
exactly. -/
theorem C4_zero_point_alignment (v : VaspData) :
    zero_point v = (if v.is_metal then v.efermi else v.vbm) ∧
    ∀ i : ℕ, (aligned_dos v).energies[i]? =
      (v.dos.energies[i]?).map (fun e => e - zero_point v) := by
  refine ⟨rfl, fun i => ?_⟩
  simp [aligned_dos, shiftEnergies]

/-- C5: after zero-point alignment, `load_dos` additionally shifts every
energy by exactly `-sigma` if and only if `ISMEAR` is -1, 0 or 1; any other
method code leaves the grid (indeed the whole DOS) unchanged by this step. -/
theorem C5_smearing_shift (v : VaspData) :
    (v.ismear ∈ [(-1 : ℤ), 0, 1] →
      (smear_shifted v).energies =
        (aligned_dos v).energies.map (fun e => e - v.sigma)) ∧
    (v.ismear ∉ [(-1 : ℤ), 0, 1] → smear_shifted v = aligned_dos v) := by
  constructor
  · intro h
    simp [smear_shifted, h, shiftEnergies]
  · intro h
    simp [smear_shifted, h]

/-- Witness for C5 at a concrete input: with `ISMEAR = 0` the grid is further
shifted by exactly `-SIGMA`. -/
theorem C5_smearing_shift_witness :
    (smear_shifted (VaspData.mk false 0 1 0 (1/10) false
        (CDos.mk [2, 3] (SpinDens.mk [5, 7] none) []))).energies =
      (aligned_dos (VaspData.mk false 0 1 0 (1/10) false
        (CDos.mk [2, 3] (SpinDens.mk [5, 7] none) []))).energies.map
        (fun e => e - (1/10 : ℚ)) :=
  (C5_smearing_shift _).1 (by decide)

/-- C6: for a spin-orbit-flagged calculation whose parsed data contains two
spin channels everywhere, `load_dos` outputs exactly one spin channel in the
total curve and in every per-site per-orbital curve (the down channel is
deleted), and the remaining channel's density values equal the original
up-channel values unchanged. -/
theorem C6_soc_channel_removal (v : VaspData)
    (hso : v.lsorbit = true)
    (htot : v.dos.densities.down.isSome)
    (hsite : ∀ sd ∈ v.dos.sites, ∀ p ∈ sd.pdos, p.2.down.isSome) :
    ∃ d, load_dos_core v = some d ∧
      d.densities.up = v.dos.densities.up ∧ d.densities.down = none ∧
      d.sites = v.dos.sites.map (fun sd =>
        SiteData.mk sd.element
          (sd.pdos.map (fun p => (p.1, SpinDens.mk p.2.up none)))) := by
  obtain ⟨x, hx⟩ := Option.isSome_iff_exists.mp htot
  have hdel : delDown (smear_shifted v).densities =
      some ⟨v.dos.densities.up, none⟩ := by
    rw [smear_shifted_densities]
    simp [delDown, hx]
  have hsites := sitesStrip_eq v.dos.sites hsite
  refine ⟨CDos.mk (smear_shifted v).energies ⟨v.dos.densities.up, none⟩
    (v.dos.sites.map (fun sd =>
      SiteData.mk sd.element
        (sd.pdos.map (fun p => (p.1, SpinDens.mk p.2.up none))))),
    ?_, rfl, rfl, rfl⟩
  unfold load_dos_core
  rw [hso]
  simp only [if_true]
  unfold socStrip
  rw [hdel, smear_shifted_sites, hsites]
  rfl

/-- Witness for C6 at a concrete two-channel spin-orbit input. -/
theorem C6_soc_channel_removal_witness :
    ∃ d, load_dos_core (VaspData.mk true 0 0 0 0 true
        (CDos.mk [1] (SpinDens.mk [4] (some [9]))
          [SiteData.mk "A" [("s", SpinDens.mk [2] (some [3]))]])) = some d ∧
      d.densities.up = [4] ∧ d.densities.down = none ∧
      d.sites = [SiteData.mk "A" [("s", SpinDens.mk [2] none)]] := by
  obtain ⟨d, h1, h2, h3, h4⟩ := C6_soc_channel_removal
    (VaspData.mk true 0 0 0 0 true
      (CDos.mk [1] (SpinDens.mk [4] (some [9]))
        [SiteData.mk "A" [("s", SpinDens.mk [2] (some [3]))]]))
    rfl (by decide) (by decide)
  exact ⟨d, h1, h2, h3, h4⟩

/-! ### Claim C8 -/

lemma getElem?_some_of_lt (l : List ℚ) (i : ℕ) (h : i < l.length) :
    ∃ x, l[i]? = some x :=
  ⟨l[i], List.getElem?_eq_getElem h⟩

/-- C8: for a total DOS with `E` energy points and `S` spin channels, the
total-DOS file has exactly `E` data rows and `1 + S` columns, with the header
token count matching the column count; with one channel the density column is
unlabeled, with two channels the columns carry `(up)` / `(down)` suffixes and
the down-channel values are negated. -/
theorem C8_total_file_shape (d : CDos) (E : ℕ)
    (hE : d.energies.length = E)
    (hup : d.densities.up.length = E)
    (hdn : ∀ l, d.densities.down = some l → l.length = E) :
    ∃ h rows, write_total d = some (h, rows) ∧
      rows.length = E ∧
      (∀ r ∈ rows, r.length = 1 + numSpins d.densities) ∧
      h.length = 1 + numSpins d.densities ∧
      (d.densities.down = none → h = ["energy", "dos"]) ∧
      (∀ l, d.densities.down = some l →
        h = ["energy", "dos(up)", "dos(down)"] ∧
        ∀ i, i < E → rows[i]? =
          some [d.energies.getD i 0, d.densities.up.getD i 0, -(l.getD i 0)]) := by
  cases hx : d.densities.down with
  | none =>
    have hnum : numSpins d.densities = 1 := by simp [numSpins, hx]
    have hw : write_total d =
        some (["energy", "dos"],
          stack1 [d.energies, scaleDens d.densities.up 1]) := by
      unfold write_total innerCols
      simp [sdataOf, hnum, getDensity]
    refine ⟨_, _, hw, ?_, ?_, by simp [hnum], fun _ => rfl,
      fun l hl => Option.noConfusion hl⟩
    · simp [stack1, hE]
    · intro r hr
      simp only [stack1, List.mem_map, List.mem_range, hE] at hr
      obtain ⟨i, hi, hrEq⟩ := hr
      obtain ⟨e, he⟩ := getElem?_some_of_lt d.energies i (by omega)
      obtain ⟨u, hu⟩ := getElem?_some_of_lt (scaleDens d.densities.up 1) i
        (by simp only [scaleDens, List.length_map]; omega)
      rw [← hrEq]
      simp [List.filterMap_cons, he, hu, hnum]
  | some l =>
    have hnum : numSpins d.densities = 2 := by simp [numSpins, hx]
    have hlen : l.length = E := hdn l hx
    have hw : write_total d =
        some (["energy", "dos(up)", "dos(down)"],
          stack1 [d.energies, scaleDens d.densities.up 1, scaleDens l (-1)]) := by
      unfold write_total innerCols
      simp [sdataOf, hnum, getDensity, hx]
    refine ⟨_, _, hw, ?_, ?_, by simp [hnum],
      fun hnone => Option.noConfusion hnone, fun l' hl' => ?_⟩
    · simp [stack1, hE]
    · intro r hr
      simp only [stack1, List.mem_map, List.mem_range, hE] at hr
      obtain ⟨i, hi, hrEq⟩ := hr
      obtain ⟨e, he⟩ := getElem?_some_of_lt d.energies i (by omega)
      obtain ⟨u, hu⟩ := getElem?_some_of_lt (scaleDens d.densities.up 1) i
        (by simp only [scaleDens, List.length_map]; omega)
      obtain ⟨w, hwl⟩ := getElem?_some_of_lt (scaleDens l (-1)) i
        (by simp only [scaleDens, List.length_map]; omega)
      rw [← hrEq]
      simp [List.filterMap_cons, he, hu, hwl, hnum]
    · injection hl' with hl'
      subst hl'
      refine ⟨rfl, fun i hi => ?_⟩
      have hrow : (stack1 [d.energies, scaleDens d.densities.up 1,
          scaleDens l (-1)])[i]? =
          some ([d.energies, scaleDens d.densities.up 1,
            scaleDens l (-1)].filterMap (fun col => col[i]?)) := by
        simp only [stack1]
        rw [List.getElem?_map, List.getElem?_range (by omega)]
        rfl
      obtain ⟨e, he⟩ := getElem?_some_of_lt d.energies i (by omega)
      obtain ⟨u, hu⟩ := getElem?_some_of_lt d.densities.up i (by omega)
      obtain ⟨w, hwl⟩ := getElem?_some_of_lt l i (by omega)
      rw [hrow]
      have hgu : (scaleDens d.densities.up 1)[i]? = some (u * 1) := by
        simp [scaleDens, List.getElem?_map, hu]
      have hgw : (scaleDens l (-1))[i]? = some (w * ((-1 : ℤ) : ℚ)) := by
        simp only [scaleDens, List.getElem?_map, hwl, Option.map_some']
      have hge : d.energies.getD i 0 = e := by simp [List.getD_eq_getElem?_getD, he]
      have hgu2 : d.densities.up.getD i 0 = u := by simp [List.getD_eq_getElem?_getD, hu]
      have hgw2 : l.getD i 0 = w := by simp [List.getD_eq_getElem?_getD, hwl]
      simp only [List.filterMap_cons, he, hgu, hgw, hge, hgu2, hgw2,
        List.filterMap_nil]
      norm_num

/-! ### Association-list lemmas -/

lemma alookup_append_ne {α : Type} (m : List (String × α)) (e : String × α)
    (k : String) (h : e.1 ≠ k) : alookup (m ++ [e]) k = alookup m k := by
  induction m with
  | nil => simp [alookup, h]
  | cons p t ih => by_cases hp : p.1 = k <;> simp [alookup, hp, ih]

lemma alookup_append_self {α : Type} (m : List (String × α)) (e : String × α)
    (h : alookup m e.1 = none) : alookup (m ++ [e]) e.1 = some e.2 := by
  induction m with
  | nil => simp [alookup]
  | cons p t ih =>
    by_cases hp : p.1 = e.1
    · simp [alookup, hp] at h
    · simp [alookup, hp] at h ⊢
      exact ih h

lemma mem_dedupFirst_aux (l : List String) :
    ∀ acc x, (x ∈ l.foldl (fun acc x => if x ∈ acc then acc else acc ++ [x]) acc ↔
      x ∈ acc ∨ x ∈ l) := by
  induction l with
  | nil => simp
  | cons a t ih =>
    intro acc x
    by_cases ha : a ∈ acc
    · simp only [List.foldl_cons, if_pos ha, ih acc x, List.mem_cons]
      constructor
      · rintro (h | h) <;> tauto
      · rintro (h | rfl | h) <;> tauto
    · simp only [List.foldl_cons, if_neg ha, ih (acc ++ [a]) x, List.mem_append,
        List.mem_singleton, List.mem_cons]
      tauto

lemma mem_dedupFirst {l : List String} {x : String} :
    x ∈ dedupFirst l ↔ x ∈ l := by
  unfold dedupFirst
  rw [mem_dedupFirst_aux l [] x]
  simp

/-! ### Claims C9, C10, C3 -/

lemma element_sites_idx_nil {dos : CDos} {el : String}
    (h : ∀ sd ∈ dos.sites, sd.element ≠ el) : element_sites_idx dos el = [] := by
  unfold element_sites_idx
  have : dos.sites.enum.filter (fun q => decide (q.2.element = el)) = [] := by
    rw [List.filter_eq_nil_iff]
    intro q hq
    simpa using h q.2 (List.snd_mem_of_mem_enum hq)
  rw [this]
  rfl

lemma select_sites_nil {dos : CDos} {el : String}
    (atoms : Option (List (String × List ℕ)))
    (h : ∀ sd ∈ dos.sites, sd.element ≠ el) : select_sites dos el atoms = [] := by
  unfold select_sites
  rw [element_sites_idx_nil h]
  rfl

/-- In `get_pdos`, folding over element entries whose keys all differ from
`el` leaves the mapping's value at `el` unchanged. -/
lemma get_pdos_fold_other (dos : CDos)
    (lm : Option (List (String × List String)))
    (atoms : Option (List (String × List ℕ)))
    (elems : List (String × Option (List String))) (el : String) :
    ∀ (L : List (String × Option (List String))) (pd0 pd : List (String × PDosMap)),
      (∀ p ∈ L, p.1 ≠ el) →
      L.foldlM (fun pd p =>
        if ltruthy atoms && !okey atoms p.1 then pure pd
        else do
          let m ← get_element_pdos dos p.1 (select_sites dos p.1 atoms)
            (olmval lm p.1) ((alookup elems p.1).getD none)
          pure (pd ++ [(p.1, m)])) pd0 = some pd →
      alookup pd el = alookup pd0 el := by
  intro L
  induction L with
  | nil =>
    intro pd0 pd _ h
    simp at h
    rw [h]
  | cons p t ih =>
    intro pd0 pd hne h
    rw [List.foldlM_cons] at h
    by_cases hc : ltruthy atoms && !okey atoms p.1
    · rw [if_pos hc] at h
      exact ih pd0 pd (fun q hq => hne q (List.mem_cons_of_mem p hq)) h
    · rw [if_neg hc] at h
      cases hm : get_element_pdos dos p.1 (select_sites dos p.1 atoms)
          (olmval lm p.1) ((alookup elems p.1).getD none) with
      | none => rw [hm] at h; simp at h
      | some m =>
        rw [hm] at h
        simp only [Option.bind_eq_bind, Option.some_bind] at h
        have := ih (pd0 ++ [(p.1, m)]) pd
          (fun q hq => hne q (List.mem_cons_of_mem p hq)) h
        rw [this, alookup_append_ne pd0 (p.1, m) el
          (hne p (List.mem_cons_self p t))]

/-- C9: a filter entry referencing an element with no site in the structure
produces no error and no orbital contribution: with that element alone in the
element filter `get_pdos` succeeds and maps it to an empty orbital mapping
(or omits it when the atoms filter excludes it), and with a defaulted element
filter the element never appears in the output. -/
theorem C9_absent_element (dos : CDos)
    (lm : Option (List (String × List String)))
    (atoms : Option (List (String × List ℕ)))
    (el : String) (orbv : Option (List String))
    (h : ∀ sd ∈ dos.sites, sd.element ≠ el) :
    (∃ pd, get_pdos dos lm atoms (some [(el, orbv)]) = some pd ∧
      ∀ m, alookup pd el = some m → m = []) ∧
    (∀ pd, get_pdos dos lm atoms none = some pd → alookup pd el = none) := by
  constructor
  · have hsel : select_sites dos el atoms = [] := select_sites_nil atoms h
    have hbase : get_pdos dos lm atoms (some [(el, orbv)]) =
        (if ltruthy atoms && !okey atoms el then pure []
         else do
           let m ← get_element_pdos dos el (select_sites dos el atoms)
             (olmval lm el) ((alookup [(el, orbv)] el).getD none)
           pure ([] ++ [(el, m)])) >>= fun b => pure b := rfl
    by_cases hc : (ltruthy atoms && !okey atoms el) = true
    · refine ⟨[], ?_, fun m hm => by simp [alookup] at hm⟩
      rw [hbase, if_pos hc]
      rfl
    · refine ⟨[(el, [])], ?_, fun m hm => ?_⟩
      · rw [hbase, if_neg hc, hsel]
        rfl
      · simp [alookup] at hm
        exact hm
  · intro pd hpd
    have hel : el ∉ symbol_set dos := by
      intro hmem
      rw [symbol_set, mem_dedupFirst, List.mem_map] at hmem
      obtain ⟨sd, hsd, heq⟩ := hmem
      exact h sd hsd heq
    unfold get_pdos at hpd
    simp only [ltruthy, if_true] at hpd
    have := get_pdos_fold_other dos lm atoms
      ((symbol_set dos).map (fun s => (s, (none : Option (List String))))) el
      ((symbol_set dos).map (fun s => (s, (none : Option (List String))))) [] pd
      (fun p hp => by
        rw [List.mem_map] at hp
        obtain ⟨sym, hsym, hpe⟩ := hp
        intro hcon
        rw [← hpe] at hcon
        exact hel (hcon ▸ hsym)) hpd
    rw [this]
    rfl

/-- Witness for C9 at a concrete input: element "Q" has no site in `exX`. -/
theorem C9_absent_element_witness :
    (∃ pd, get_pdos exX none none (some [("Q", none)]) = some pd ∧
      ∀ m, alookup pd "Q" = some m → m = []) ∧
    (∀ pd, get_pdos exX none none none = some pd → alookup pd "Q" = none) :=
  C9_absent_element exX none none "Q" none (by decide)

lemma fst_lt_len_of_mem_enum {α : Type} {q : ℕ × α} {l : List α}
    (h : q ∈ l.enum) : q.1 < l.length :=
  List.fst_lt_of_mem_enum h

/-- C10: an atoms filter whose indices for an element are all out of range
for that element's site sublist raises no error: the membership test keeps no
site, the selection is empty and the element's orbital mapping is empty. -/
theorem C10_out_of_range_atoms (dos : CDos) (alist : List (String × List ℕ))
    (el : String) (lm orbs : Option (List String))
    (hne : alist ≠ [])
    (hout : ∀ i ∈ (alookup alist el).getD [], (element_sites_idx dos el).length ≤ i) :
    select_sites dos el (some alist) = [] ∧
    get_element_pdos dos el (select_sites dos el (some alist)) lm orbs = some [] := by
  have htru : ltruthy (some alist) = true := by
    cases alist with
    | nil => exact absurd rfl hne
    | cons a t => simp [ltruthy]
  have hfil : (element_sites_idx dos el).enum.filter (fun q =>
      !ltruthy (some alist) || (okey (some alist) el &&
        decide (q.1 ∈ ((alookup ((some alist).getD []) el).getD [])))) = [] := by
    rw [List.filter_eq_nil_iff]
    intro q hq
    have hlt := fst_lt_len_of_mem_enum hq
    rw [htru]
    simp only [Bool.not_true, Bool.false_or, Bool.and_eq_true, decide_eq_true_eq,
      not_and]
    intro _
    intro hmem
    have := hout q.1 (by simpa using hmem)
    omega
  have hsel : select_sites dos el (some alist) = [] := by
    unfold select_sites
    rw [hfil]
    rfl
  exact ⟨hsel, by rw [hsel]; rfl⟩

/-- Witness for C10 at a concrete input: index 5 is out of range for the
single "X" site of `exX`. -/
theorem C10_out_of_range_atoms_witness :
    select_sites exX "X" (some [("X", [5])]) = [] ∧
    get_element_pdos exX "X" (select_sites exX "X" (some [("X", [5])]))
      none none = some [] :=
  C10_out_of_range_atoms exX [("X", [5])] "X" none none (by decide) (by decide)

/-- C3 fails on the code: with the atoms filter `{"X": []}` (empty index
list) `get_pdos` selects no "X" site and returns an empty orbital mapping for
"X", while omitting the atoms filter returns the site's s curve — the
documented "empty list = all sites" behavior does not hold. -/
theorem C3_empty_atoms_empty_selection :
    get_pdos exX none (some [("X", [])]) (some [("X", none)]) =
      some [("X", [])] ∧
    get_pdos exX none none (some [("X", none)]) =
      some [("X", [("s", SpinDens.mk [2, 3] none)])] := by
  exact ⟨by decide, by decide⟩

/-- Witness for C8 at a concrete two-channel input. -/
theorem C8_total_file_shape_witness :
    ∃ h rows, write_total exW = some (h, rows) ∧
      rows.length = 2 ∧
      (∀ r ∈ rows, r.length = 1 + numSpins exW.densities) ∧
      h.length = 1 + numSpins exW.densities ∧
      (exW.densities.down = none → h = ["energy", "dos"]) ∧
      (∀ l, exW.densities.down = some l →
        h = ["energy", "dos(up)", "dos(down)"] ∧
        ∀ i, i < 2 → rows[i]? =
          some [exW.energies.getD i 0, exW.densities.up.getD i 0, -(l.getD i 0)]) :=
  C8_total_file_shape exW 2 rfl rfl
    (fun l hl => by injection hl with hh; subst hh; rfl)

/-! ### Claim C7 -/

lemma alookup_mem {α : Type} {m : List (String × α)} {k : String} {v : α}
    (h : alookup m k = some v) : (k, v) ∈ m := by
  induction m with
  | nil => simp [alookup] at h
  | cons p t ih =>
    by_cases hp : p.1 = k
    · simp only [alookup, if_pos hp] at h
      injection h with h
      rw [← hp, ← h]
      exact List.mem_cons_self p t
    · simp only [alookup, if_neg hp] at h
      exact List.mem_cons_of_mem p (ih h)

lemma inner_fold_succeeds (d : CDos) (curve : SpinDens)
    (hc : d.densities.down.isSome = true → curve.down.isSome = true) :
    ∃ cols, innerCols (sdataOf d.densities) curve = some cols := by
  cases hd : d.densities.down with
  | none =>
    have hsd : sdataOf d.densities = [(true, 1, "")] := by
      simp [sdataOf, numSpins, hd]
    rw [hsd]
    exact ⟨_, rfl⟩
  | some l =>
    obtain ⟨cd, hcd⟩ := Option.isSome_iff_exists.mp (hc (by simp [hd]))
    have hsd : sdataOf d.densities = [(true, 1, "(up)"), (false, -1, "(down)")] := by
      simp [sdataOf, numSpins, hd]
    rw [hsd]
    simp [innerCols, List.foldlM_cons, getDensity, hcd]

lemma write_fold_succeeds (d : CDos) (m : PDosMap)
    (hch : ∀ p ∈ m, d.densities.down.isSome = true → p.2.down.isSome = true) :
    ∀ (L : List String), (∀ k ∈ L, (alookup m k).isSome) →
    ∀ acc : List (List ℚ), ∃ cols,
      L.foldlM (fun acc orb => do
        let curve ← alookup m orb
        let newcols ← innerCols (sdataOf d.densities) curve
        pure (acc ++ newcols)) acc = some cols := by
  intro L
  induction L with
  | nil => exact fun _ acc => ⟨acc, rfl⟩
  | cons orb t ih =>
    intro hall acc
    obtain ⟨curve, hcur⟩ := Option.isSome_iff_exists.mp
      (hall orb (List.mem_cons_self orb t))
    obtain ⟨inner, hinner⟩ := inner_fold_succeeds d curve
      (hch (orb, curve) (alookup_mem hcur))
    obtain ⟨cols, hcols⟩ := ih (fun k hk => hall k (List.mem_cons_of_mem orb hk))
      (acc ++ inner)
    refine ⟨cols, ?_⟩
    rw [List.foldlM_cons, hcur]
    simp only [Option.bind_eq_bind, Option.some_bind]
    rw [hinner]
    simpa using hcols

lemma write_element_header (d : CDos) (m : PDosMap) (h : List String)
    (rows : List (List ℚ)) (hw : write_element d m = some (h, rows)) :
    h = "energy" :: (sort_orbitals m).flatMap
      (fun orb => (sdataOf d.densities).map (fun t => orb ++ t.2.2)) := by
  unfold write_element at hw
  cases hfold : (sort_orbitals m).foldlM (fun acc orb => do
      let curve ← alookup m orb
      let newcols ← innerCols (sdataOf d.densities) curve
      pure (acc ++ newcols)) ([] : List (List ℚ)) with
  | none => rw [hfold] at hw; simp at hw
  | some cols =>
    rw [hfold] at hw
    simp only [Option.bind_eq_bind, Option.some_bind, Option.pure_def,
      Option.some_inj, Prod.mk.injEq] at hw
    rw [← hw.1]

/-- C7: `write_files` emits each element's orbital columns in the fixed
canonical order `sorted_orbitals`, independent of the mapping's key order,
and silently omits any orbital whose label is absent from that list: the
emitted orbital sequence `sort_orbitals m` is a sublist of the canonical
list, contains exactly the canonical orbitals present in the mapping, depends
only on the mapping's key set, and prefixes the written header. -/
theorem C7_canonical_order (d : CDos) (m : PDosMap)
    (hch : ∀ p ∈ m, d.densities.down.isSome = true → p.2.down.isSome = true) :
    (sort_orbitals m).Sublist sorted_orbitals ∧
    (∀ k, k ∈ sort_orbitals m ↔ k ∈ sorted_orbitals ∧ (alookup m k).isSome) ∧
    (∀ m' : PDosMap, (∀ k, (alookup m' k).isSome = (alookup m k).isSome) →
      sort_orbitals m' = sort_orbitals m) ∧
    (∃ h rows, write_element d m = some (h, rows) ∧
      h = "energy" :: (sort_orbitals m).flatMap
        (fun orb => (sdataOf d.densities).map (fun t => orb ++ t.2.2)) ∧
      (∀ (m' : PDosMap) h' rows',
        (∀ k, (alookup m' k).isSome = (alookup m k).isSome) →
        write_element d m' = some (h', rows') → h' = h)) := by
  have hmemiff : ∀ k, k ∈ sort_orbitals m ↔
      k ∈ sorted_orbitals ∧ (alookup m k).isSome := by
    intro k
    unfold sort_orbitals
    rw [List.mem_filter]
  have hcongr : ∀ m' : PDosMap,
      (∀ k, (alookup m' k).isSome = (alookup m k).isSome) →
      sort_orbitals m' = sort_orbitals m := by
    intro m' hk
    unfold sort_orbitals
    exact List.filter_congr (fun k _ => by rw [hk k])
  refine ⟨List.filter_sublist _, hmemiff, hcongr, ?_⟩
  obtain ⟨cols, hcols⟩ := write_fold_succeeds d m hch (sort_orbitals m)
    (fun k hk => ((hmemiff k).mp hk).2) []
  refine ⟨"energy" :: (sort_orbitals m).flatMap
      (fun orb => (sdataOf d.densities).map (fun t => orb ++ t.2.2)),
    stack1 (d.energies :: cols), ?_, rfl, ?_⟩
  · unfold write_element
    rw [hcols]
    rfl
  · intro m' h' rows' hk hw'
    rw [write_element_header d m' h' rows' hw', hcongr m' hk]

/-- Witness for C7 at a concrete input: a mapping listing px before s and
containing the non-canonical key "zz". -/
theorem C7_canonical_order_witness :
    ((sort_orbitals [("px", SpinDens.mk [1] none), ("s", SpinDens.mk [2] none),
        ("zz", SpinDens.mk [3] none)]).Sublist sorted_orbitals ∧
     (∀ k, k ∈ sort_orbitals [("px", SpinDens.mk [1] none),
        ("s", SpinDens.mk [2] none), ("zz", SpinDens.mk [3] none)] ↔
        k ∈ sorted_orbitals ∧
        (alookup [("px", SpinDens.mk [1] none), ("s", SpinDens.mk [2] none),
          ("zz", SpinDens.mk [3] none)] k).isSome) ∧
     (∀ m' : PDosMap, (∀ k, (alookup m' k).isSome =
        (alookup [("px", SpinDens.mk [1] none), ("s", SpinDens.mk [2] none),
          ("zz", SpinDens.mk [3] none)] k).isSome) →
        sort_orbitals m' = sort_orbitals [("px", SpinDens.mk [1] none),
          ("s", SpinDens.mk [2] none), ("zz", SpinDens.mk [3] none)]) ∧
     (∃ h rows, write_element exX [("px", SpinDens.mk [1] none),
          ("s", SpinDens.mk [2] none), ("zz", SpinDens.mk [3] none)] =
          some (h, rows) ∧
        h = "energy" :: (sort_orbitals [("px", SpinDens.mk [1] none),
          ("s", SpinDens.mk [2] none), ("zz", SpinDens.mk [3] none)]).flatMap
          (fun orb => (sdataOf exX.densities).map (fun t => orb ++ t.2.2)) ∧
        (∀ (m' : PDosMap) h' rows',
          (∀ k, (alookup m' k).isSome =
            (alookup [("px", SpinDens.mk [1] none), ("s", SpinDens.mk [2] none),
              ("zz", SpinDens.mk [3] none)] k).isSome) →
          write_element exX m' = some (h', rows') → h' = h))) :=
  C7_canonical_order exX
    [("px", SpinDens.mk [1] none), ("s", SpinDens.mk [2] none),
     ("zz", SpinDens.mk [3] none)]
    (by decide)

/-! ### Claims C1 and C2: the aggregation loop of `get_element_pdos`

The lemmas characterize, pass by pass, the association list built by the
`for site in sites` loop: each site pass combines the accumulated curve at
every touched key with the site's fetched curve. -/

lemma combineOpt_none_right (a : Option SpinDens) : combineOpt a none = a := by
  cases a <;> rfl

lemma alookup_replaceVal_of_ne {α : Type} (m : List (String × α)) (k : String)
    (s : α) (k2 : String) (h : k ≠ k2) :
    alookup (replaceVal m k s) k2 = alookup m k2 := by
  induction m with
  | nil => rfl
  | cons p t ih =>
    by_cases hp : p.1 = k
    · have hp2 : ¬(p.1 = k2) := by rw [hp]; exact h
      simp only [replaceVal, List.map_cons, if_pos hp, alookup, if_neg h,
        if_neg hp2]
      exact ih
    · simp only [replaceVal, List.map_cons, if_neg hp, alookup]
      by_cases hp2 : p.1 = k2
      · rw [if_pos hp2, if_pos hp2]
      · rw [if_neg hp2, if_neg hp2]
        exact ih

lemma alookup_replaceVal_self {α : Type} (m : List (String × α)) (k : String)
    (s : α) (h : (alookup m k).isSome) :
    alookup (replaceVal m k s) k = some s := by
  induction m with
  | nil => simp [alookup] at h
  | cons p t ih =>
    by_cases hp : p.1 = k
    · simp only [replaceVal, List.map_cons, if_pos hp]
      simp [alookup]
    · simp only [alookup, if_neg hp] at h
      simp only [replaceVal, List.map_cons, if_neg hp, alookup, if_neg hp]
      exact ih h

lemma updAdd_lookup {m : PDosMap} {k : String} {v : SpinDens} {m2 : PDosMap}
    (h : updAdd m k v = some m2) :
    (∀ k2, k2 ≠ k → alookup m2 k2 = alookup m k2) ∧
    alookup m2 k = combineOpt (alookup m k) (some v) ∧
    (alookup m2 k).isSome := by
  cases hl : alookup m k with
  | none =>
    have h2 : some (m ++ [(k, v)]) = some m2 := by
      rw [← h]
      unfold updAdd
      rw [hl]
    injection h2 with h2
    subst h2
    refine ⟨fun k2 hk2 => alookup_append_ne m (k, v) k2 (fun he => hk2 he.symm),
      ?_, ?_⟩
    · rw [alookup_append_self m (k, v) hl]
      rfl
    · rw [alookup_append_self m (k, v) hl]
      rfl
  | some old =>
    have h2 : (addSpin old v).map (fun s => replaceVal m k s) = some m2 := by
      rw [← h]
      unfold updAdd
      rw [hl]
    cases ha : addSpin old v with
    | none => rw [ha] at h2; simp at h2
    | some snew =>
      rw [ha] at h2
      simp only [Option.map_some', Option.some_inj] at h2
      subst h2
      refine ⟨fun k2 hk2 => alookup_replaceVal_of_ne m k snew k2
          (fun he => hk2 he.symm), ?_, ?_⟩
      · rw [alookup_replaceVal_self m k snew (by simp [hl])]
        show some snew = addSpin old v
        exact ha.symm
      · rw [alookup_replaceVal_self m k snew (by simp [hl])]
        rfl

lemma passFold_lookup (F : String → Option SpinDens) (L : List String)
    (hL : L.Nodup) :
    ∀ m m', passFold F m L = some m' →
    ∀ k, (k ∉ L → alookup m' k = alookup m k) ∧
      (k ∈ L → alookup m' k = combineOpt (alookup m k) (F k) ∧
        (alookup m' k).isSome) := by
  induction L with
  | nil =>
    intro m m' h k
    simp only [passFold, List.foldlM_nil] at h
    injection h with h
    subst h
    exact ⟨fun _ => rfl, fun hk => absurd hk (List.not_mem_nil k)⟩
  | cons orb t ih =>
    intro m m' h k
    rw [passFold, List.foldlM_cons] at h
    cases hf : F orb with
    | none => rw [hf] at h; simp at h
    | some p =>
      rw [hf] at h
      simp only [Option.bind_eq_bind, Option.some_bind] at h
      cases hu : updAdd m orb p with
      | none => rw [hu] at h; simp at h
      | some m1 =>
        rw [hu] at h
        simp only [Option.some_bind] at h
        have hrest := ih (List.Nodup.of_cons hL) m1 m' h
        obtain ⟨hne, horb, hsome1⟩ := updAdd_lookup hu
        constructor
        · intro hk
          have hk1 : k ∉ t := fun hkt => hk (List.mem_cons_of_mem orb hkt)
          have hk2 : k ≠ orb := fun he => hk (he ▸ List.mem_cons_self orb t)
          rw [(hrest k).1 hk1, hne k hk2]
        · intro hk
          rcases List.mem_cons.mp hk with hko | hkt
          · subst hko
            have hknt : k ∉ t := (List.nodup_cons.mp hL).1
            rw [(hrest k).1 hknt]
            exact ⟨by rw [horb, hf], hsome1⟩
          · obtain ⟨heq, hsome⟩ := (hrest k).2 hkt
            have hk2 : k ≠ orb := by
              intro he
              rw [he] at hkt
              exact (List.nodup_cons.mp hL).1 hkt
            refine ⟨?_, hsome⟩
            rw [heq, hne k hk2]

lemma passFold_fetch (F : String → Option SpinDens) (L : List String) :
    ∀ m m', passFold F m L = some m' → ∀ o ∈ L, (F o).isSome := by
  induction L with
  | nil => intro m m' _ o ho; exact absurd ho (List.not_mem_nil o)
  | cons orb t ih =>
    intro m m' h o ho
    rw [passFold, List.foldlM_cons] at h
    cases hf : F orb with
    | none => rw [hf] at h; simp at h
    | some p =>
      rw [hf] at h
      simp only [Option.bind_eq_bind, Option.some_bind] at h
      cases hu : updAdd m orb p with
      | none => rw [hu] at h; simp at h
      | some m1 =>
        rw [hu] at h
        simp only [Option.some_bind] at h
        rcases List.mem_cons.mp ho with ho | ho
        · rw [ho, hf]; rfl
        · exact ih m1 m' h o ho

lemma passFold_fresh (F : String → Option SpinDens) (L : List String)
    (hL : L.Nodup) :
    ∀ m, (∀ o ∈ L, (F o).isSome) → (∀ o ∈ L, alookup m o = none) →
    ∃ m', passFold F m L = some m' := by
  induction L with
  | nil => exact fun m _ _ => ⟨m, rfl⟩
  | cons orb t ih =>
    intro m hfe hfr
    obtain ⟨p, hp⟩ := Option.isSome_iff_exists.mp
      (hfe orb (List.mem_cons_self orb t))
    have hup : updAdd m orb p = some (m ++ [(orb, p)]) := by
      unfold updAdd
      rw [hfr orb (List.mem_cons_self orb t)]
    have hfr2 : ∀ o ∈ t, alookup (m ++ [(orb, p)]) o = none := by
      intro o ho
      have hne : orb ≠ o := by
        intro he
        exact (List.nodup_cons.mp hL).1 (he ▸ ho)
      rw [alookup_append_ne m (orb, p) o hne]
      exact hfr o (List.mem_cons_of_mem orb ho)
    obtain ⟨m', hm'⟩ := ih (List.Nodup.of_cons hL) (m ++ [(orb, p)])
      (fun o ho => hfe o (List.mem_cons_of_mem orb ho)) hfr2
    refine ⟨m', ?_⟩
    rw [passFold, List.foldlM_cons, hp]
    simp only [Option.bind_eq_bind, Option.some_bind]
    rw [hup]
    simpa [passFold] using hm'

lemma dedupFirst_nodup_aux (l : List String) :
    ∀ acc : List String, acc.Nodup →
      (l.foldl (fun acc x => if x ∈ acc then acc else acc ++ [x]) acc).Nodup := by
  induction l with
  | nil => exact fun acc h => h
  | cons a t ih =>
    intro acc hacc
    rw [List.foldl_cons]
    by_cases ha : a ∈ acc
    · rw [if_pos ha]
      exact ih acc hacc
    · rw [if_neg ha]
      refine ih (acc ++ [a]) (List.nodup_append.mpr
        ⟨hacc, List.nodup_singleton a, ?_⟩)
      intro x hx hxa
      rw [List.mem_singleton] at hxa
      exact ha (hxa ▸ hx)

lemma dedupFirst_nodup (l : List String) : (dedupFirst l).Nodup :=
  dedupFirst_nodup_aux l [] List.nodup_nil

lemma shellOf_length_le (s : String) : (shellOf s).length ≤ 1 := by
  have : (shellOf s).length = (s.data.take 1).length := rfl
  rw [this, List.length_take]
  exact Nat.min_le_left 1 s.data.length

lemma enum_short : ∀ n ∈ orbitalEnum, n.length ≤ 1 → n = "s" := by decide

lemma element_spd_keys_shell (dos : CDos) (el : String) (k : String)
    (hk : k ∈ element_spd_keys dos el) : ∃ s, k = shellOf s := by
  unfold element_spd_keys at hk
  rw [mem_dedupFirst] at hk
  rw [List.mem_flatMap] at hk
  obtain ⟨sd, _, hmap⟩ := hk
  rw [List.mem_map] at hmap
  obtain ⟨p, _, heq⟩ := hmap
  exact ⟨p.1, heq.symm⟩

lemma spd_lm_disjoint (dos : CDos) (el : String)
    (lm orbs : Option (List String)) (k : String)
    (h1 : k ∈ spdList dos el lm orbs) (h2 : k ∈ lmList lm) : False := by
  unfold lmList at h2
  rw [List.mem_filter, Bool.and_eq_true] at h2
  obtain ⟨henum, htr, hsmem⟩ := h2
  unfold spdList at h1
  rw [List.mem_filter, Bool.and_eq_true] at h1
  obtain ⟨hkeys, _, hlmpred⟩ := h1
  rw [htr] at hlmpred
  simp only [Bool.true_and, Bool.not_true, Bool.or_false] at hlmpred
  obtain ⟨s0, hs0⟩ := element_spd_keys_shell dos el k hkeys
  have hlen : k.length ≤ 1 := hs0 ▸ shellOf_length_le s0
  have hks : k = "s" := enum_short k henum hlen
  have hshell : shellOf k = k := by rw [hks]; decide
  rw [hshell] at hsmem
  rw [hsmem] at hlmpred
  simp at hlmpred

lemma spdList_nodup (dos : CDos) (el : String)
    (lm orbs : Option (List String)) : (spdList dos el lm orbs).Nodup :=
  (dedupFirst_nodup _).filter _

lemma lmList_nodup (lm : Option (List String)) : (lmList lm).Nodup :=
  List.Nodup.filter _ (by decide : orbitalEnum.Nodup)

lemma processSite_lookup {dos : CDos} {el : String}
    {lm orbs : Option (List String)} {m : PDosMap} {site : ℕ} {m2 : PDosMap}
    (h : processSite dos el lm orbs m site = some m2) :
    ∀ k, alookup m2 k =
        combineOpt (alookup m k) (siteContrib dos el lm orbs site k) ∧
      ((alookup m k).isSome → (alookup m2 k).isSome) ∧
      ((k ∈ spdList dos el lm orbs ∨ k ∈ lmList lm) → (alookup m2 k).isSome) := by
  rw [processSite] at h
  cases hmid : passFold (fun orb => get_site_spd_dos dos site orb) m
      (spdList dos el lm orbs) with
  | none => rw [hmid] at h; simp at h
  | some m1 =>
    rw [hmid] at h
    simp only [Option.bind_eq_bind, Option.some_bind] at h
    have H1 := passFold_lookup _ _ (spdList_nodup dos el lm orbs) m m1 hmid
    have H2 := passFold_lookup _ _ (lmList_nodup lm) m1 m2 h
    intro k
    by_cases hk1 : k ∈ spdList dos el lm orbs
    · have hk2 : k ∉ lmList lm := fun hin => spd_lm_disjoint dos el lm orbs k hk1 hin
      have e2 : alookup m2 k = alookup m1 k := (H2 k).1 hk2
      obtain ⟨e1, s1⟩ := (H1 k).2 hk1
      refine ⟨?_, fun _ => e2 ▸ s1, fun _ => e2 ▸ s1⟩
      rw [e2, e1]
      simp only [siteContrib, if_pos hk1]
    · by_cases hk2 : k ∈ lmList lm
      · have e1 : alookup m1 k = alookup m k := (H1 k).1 hk1
        obtain ⟨e2, s2⟩ := (H2 k).2 hk2
        refine ⟨?_, fun _ => s2, fun _ => s2⟩
        rw [e2, e1]
        simp only [siteContrib, if_neg hk1, if_pos hk2]
      · have e1 : alookup m1 k = alookup m k := (H1 k).1 hk1
        have e2 : alookup m2 k = alookup m1 k := (H2 k).1 hk2
        refine ⟨?_, fun hs => by rw [e2, e1]; exact hs,
          fun hk => absurd hk (by tauto)⟩
        rw [e2, e1]
        simp only [siteContrib, if_neg hk1, if_neg hk2]
        exact (combineOpt_none_right _).symm

lemma processSite_empty {dos : CDos} {el : String}
    {lm orbs : Option (List String)} {m : PDosMap} {site : ℕ} {m2 : PDosMap}
    (h : processSite dos el lm orbs m site = some m2) :
    ∃ ms, processSite dos el lm orbs [] site = some ms ∧
      ∀ k, alookup ms k = siteContrib dos el lm orbs site k := by
  rw [processSite] at h
  cases hmid : passFold (fun orb => get_site_spd_dos dos site orb) m
      (spdList dos el lm orbs) with
  | none => rw [hmid] at h; simp at h
  | some m1 =>
    rw [hmid] at h
    simp only [Option.bind_eq_bind, Option.some_bind] at h
    have hf1 := passFold_fetch _ _ m m1 hmid
    have hf2 := passFold_fetch _ _ m1 m2 h
    obtain ⟨msA, hmsA⟩ := passFold_fresh _ _ (spdList_nodup dos el lm orbs) []
      hf1 (fun o _ => rfl)
    have HA := passFold_lookup _ _ (spdList_nodup dos el lm orbs) [] msA hmsA
    have hfr2 : ∀ o ∈ lmList lm, alookup msA o = none := by
      intro o ho
      have hno : o ∉ spdList dos el lm orbs :=
        fun hin => spd_lm_disjoint dos el lm orbs o hin ho
      rw [(HA o).1 hno]
      rfl
    obtain ⟨ms, hms⟩ := passFold_fresh _ _ (lmList_nodup lm) msA hf2 hfr2
    have HB := passFold_lookup _ _ (lmList_nodup lm) msA ms hms
    refine ⟨ms, ?_, ?_⟩
    · rw [processSite, hmsA]
      simp only [Option.bind_eq_bind, Option.some_bind]
      exact hms
    · intro k
      by_cases hk2 : k ∈ lmList lm
      · have hk1 : k ∉ spdList dos el lm orbs :=
          fun hin => spd_lm_disjoint dos el lm orbs k hin hk2
        obtain ⟨e2, _⟩ := (HB k).2 hk2
        rw [e2, (HA k).1 hk1]
        simp only [siteContrib, if_neg hk1, if_pos hk2]
        rfl
      · have e2 : alookup ms k = alookup msA k := (HB k).1 hk2
        by_cases hk1 : k ∈ spdList dos el lm orbs
        · obtain ⟨e1, _⟩ := (HA k).2 hk1
          rw [e2, e1]
          simp only [siteContrib, if_pos hk1]
          rfl
        · rw [e2, (HA k).1 hk1]
          simp only [siteContrib, if_neg hk1, if_neg hk2]
          rfl

lemma gep_fold_lookup (dos : CDos) (el : String)
    (lm orbs : Option (List String)) :
    ∀ (sites : List ℕ) (m0 m : PDosMap),
      sites.foldlM (processSite dos el lm orbs) m0 = some m →
      ∀ k, alookup m k = sites.foldl (fun acc s =>
          combineOpt acc (siteContrib dos el lm orbs s k)) (alookup m0 k) ∧
        ((alookup m0 k).isSome → (alookup m k).isSome) ∧
        ((sites ≠ [] ∧ (k ∈ spdList dos el lm orbs ∨ k ∈ lmList lm)) →
          (alookup m k).isSome) := by
  intro sites
  induction sites with
  | nil =>
    intro m0 m h k
    simp only [List.foldlM_nil] at h
    injection h with h
    subst h
    exact ⟨rfl, id, fun hc => absurd rfl hc.1⟩
  | cons s rest ih =>
    intro m0 m h k
    rw [List.foldlM_cons] at h
    cases h1 : processSite dos el lm orbs m0 s with
    | none => rw [h1] at h; simp at h
    | some m1 =>
      rw [h1] at h
      simp only [Option.bind_eq_bind, Option.some_bind] at h
      have HP := processSite_lookup h1 k
      have HI := ih m1 m h k
      refine ⟨?_, fun hs => HI.2.1 (HP.2.1 hs), ?_⟩
      · rw [HI.1, List.foldl_cons, HP.1]
      · rintro ⟨-, htouch⟩
        exact HI.2.1 (HP.2.2 htouch)

lemma gep_fold_each (dos : CDos) (el : String)
    (lm orbs : Option (List String)) :
    ∀ (sites : List ℕ) (m0 m : PDosMap),
      sites.foldlM (processSite dos el lm orbs) m0 = some m →
      ∀ s ∈ sites, ∃ macc mnext, processSite dos el lm orbs macc s = some mnext := by
  intro sites
  induction sites with
  | nil => intro m0 m _ s hs; exact absurd hs (List.not_mem_nil s)
  | cons s0 rest ih =>
    intro m0 m h s hs
    rw [List.foldlM_cons] at h
    cases h1 : processSite dos el lm orbs m0 s0 with
    | none => rw [h1] at h; simp at h
    | some m1 =>
      rw [h1] at h
      simp only [Option.bind_eq_bind, Option.some_bind] at h
      rcases List.mem_cons.mp hs with hs0 | hsr
      · exact ⟨m0, m1, hs0 ▸ h1⟩
      · exact ih m1 m h s hsr

lemma gep_singleton (dos : CDos) (el : String) (s : ℕ)
    (lm orbs : Option (List String)) :
    get_element_pdos dos el [s] lm orbs = processSite dos el lm orbs [] s := by
  unfold get_element_pdos
  rw [List.foldlM_cons]
  cases hp : processSite dos el lm orbs [] s <;> simp [hp]

lemma foldl_congr_mem {β : Type} (l : List β)
    (f g : Option SpinDens → β → Option SpinDens)
    (h : ∀ s ∈ l, ∀ acc, f acc s = g acc s) :
    ∀ a, l.foldl f a = l.foldl g a := by
  induction l with
  | nil => intro a; rfl
  | cons s t ih =>
    intro a
    rw [List.foldl_cons, List.foldl_cons, h s (List.mem_cons_self s t) a]
    exact ih (fun q hq acc => h q (List.mem_cons_of_mem s hq) acc) _

lemma foldl_id {β : Type} (l : List β) (a : Option SpinDens) :
    l.foldl (fun acc _ => acc) a = a := by
  induction l generalizing a with
  | nil => rfl
  | cons s t ih => rw [List.foldl_cons]; exact ih a

lemma smulSpin_one (v : SpinDens) : smulSpin 1 v = v := by
  cases v with
  | mk up down =>
    cases down with
    | none => simp [smulSpin]
    | some dl => simp [smulSpin]

lemma addDens_smul (j : ℕ) (l : Dens) :
    addDens (l.map (fun x => (j : ℚ) * x)) l =
      l.map (fun x => ((j + 1 : ℕ) : ℚ) * x) := by
  induction l with
  | nil => rfl
  | cons a t ih =>
    simp only [List.map_cons, addDens, List.zipWith_cons_cons] at ih ⊢
    refine congrArg₂ (· :: ·) ?_ ih
    push_cast
    ring

lemma addSpin_smul (j : ℕ) (v : SpinDens) :
    addSpin (smulSpin j v) v = some (smulSpin (j + 1) v) := by
  cases v with
  | mk up down =>
    cases down with
    | none => simp [smulSpin, addSpin, addDens_smul]
    | some dl => simp [smulSpin, addSpin, addDens_smul]

lemma foldl_combine_const (v : SpinDens) :
    ∀ (l : List ℕ) (j : ℕ),
      l.foldl (fun acc _ => combineOpt acc (some v)) (some (smulSpin j v)) =
        some (smulSpin (j + l.length) v) := by
  intro l
  induction l with
  | nil => intro j; rfl
  | cons a t ih =>
    intro j
    rw [List.foldl_cons]
    have hstep : combineOpt (some (smulSpin j v)) (some v) =
        some (smulSpin (j + 1) v) := addSpin_smul j v
    rw [hstep, ih (j + 1)]
    have harith : j + 1 + t.length = j + (a :: t).length := by
      rw [List.length_cons]
      omega
    rw [harith]

/-- C1: requesting a shell for lm-decomposition always yields all of that
shell's m-sublevel orbitals in the element's mapping, regardless of any
orbital filter also supplied, and the mapping contains no non-decomposed
spd-level entry for an lm-requested shell (the orbital filter restrains only
the spd-level selection). -/
theorem C1_lm_completeness (dos : CDos) (el : String) (sites : List ℕ)
    (lmreq : List String) (orbs : Option (List String)) (m : PDosMap)
    (h : get_element_pdos dos el sites (some lmreq) orbs = some m)
    (hs : sites ≠ []) :
    (∀ o ∈ orbitalEnum, shellOf o ∈ lmreq → (alookup m o).isSome) ∧
    (∀ sh ∈ lmreq, sh ∉ orbitalEnum → alookup m sh = none) := by
  have J := gep_fold_lookup dos el (some lmreq) orbs sites [] m h
  constructor
  · intro o ho hsh
    have htr : ltruthy (some lmreq) = true := by
      have hne : lmreq ≠ [] := List.ne_nil_of_mem hsh
      simp [ltruthy, hne]
    have hlmm : o ∈ lmList (some lmreq) := by
      unfold lmList
      rw [List.mem_filter]
      refine ⟨ho, ?_⟩
      rw [Bool.and_eq_true, htr]
      exact ⟨rfl, by simp [olmem, hsh]⟩
    exact (J o).2.2 ⟨hs, Or.inr hlmm⟩
  · intro sh hsh hnen
    have htr : ltruthy (some lmreq) = true := by
      have hne : lmreq ≠ [] := List.ne_nil_of_mem hsh
      simp [ltruthy, hne]
    have hnotspd : sh ∉ spdList dos el (some lmreq) orbs := by
      intro hin
      unfold spdList at hin
      rw [List.mem_filter, Bool.and_eq_true] at hin
      obtain ⟨_, _, hpred⟩ := hin
      rw [htr] at hpred
      simp only [Bool.true_and, Bool.not_true, Bool.or_false] at hpred
      rw [olmem] at hpred
      simp [hsh] at hpred
    have hnotlm : sh ∉ lmList (some lmreq) := by
      intro hin
      unfold lmList at hin
      rw [List.mem_filter] at hin
      exact hnen hin.1
    rw [(J sh).1]
    rw [foldl_congr_mem sites _ (fun acc _ => acc) (fun s _ acc => by
      simp only [siteContrib, if_neg hnotspd, if_neg hnotlm]
      exact combineOpt_none_right acc)]
    rw [foldl_id]
    rfl

/-- Witness for C1 at a concrete input: lm-decomposition of the p shell with
the orbital filter `["s", "px"]` still yields all of py, pz, px and no plain
"p" entry. -/
theorem C1_lm_completeness_witness :
    (∀ o ∈ orbitalEnum, shellOf o ∈ ["p"] →
      (alookup [("s", SpinDens.mk [1] none), ("py", SpinDens.mk [2] none),
        ("pz", SpinDens.mk [3] none), ("px", SpinDens.mk [4] none)] o).isSome) ∧
    (∀ sh ∈ ["p"], sh ∉ orbitalEnum →
      alookup [("s", SpinDens.mk [1] none), ("py", SpinDens.mk [2] none),
        ("pz", SpinDens.mk [3] none), ("px", SpinDens.mk [4] none)] sh = none) :=
  C1_lm_completeness exA "A" [0] ["p"] (some ["s", "px"])
    [("s", SpinDens.mk [1] none), ("py", SpinDens.mk [2] none),
     ("pz", SpinDens.mk [3] none), ("px", SpinDens.mk [4] none)]
    (by decide) (by decide)

/-- C2: aggregation over sites is linear — every orbital's aggregate curve is
the element-wise (left-folded) sum of the per-site curves `get_element_pdos`
returns for the singleton site lists; in particular, when the per-site curves
at an orbital are identical over `n` selected sites, the aggregate equals `n`
times the single-site curve. -/
theorem C2_aggregation_linearity (dos : CDos) (el : String) (sites : List ℕ)
    (lm orbs : Option (List String)) (m : PDosMap)
    (h : get_element_pdos dos el sites lm orbs = some m) :
    (∀ k, alookup m k = sites.foldl (fun acc s =>
      combineOpt acc ((get_element_pdos dos el [s] lm orbs).bind
        (fun ms => alookup ms k))) none) ∧
    (∀ k v n, sites.length = n → 0 < n →
      (∀ s ∈ sites, (get_element_pdos dos el [s] lm orbs).bind
        (fun ms => alookup ms k) = some v) →
      alookup m k = some (smulSpin n v)) := by
  have hsingle : ∀ s ∈ sites, ∀ k,
      (get_element_pdos dos el [s] lm orbs).bind (fun ms => alookup ms k) =
        siteContrib dos el lm orbs s k := by
    intro s hs k
    obtain ⟨macc, mnext, hmac⟩ := gep_fold_each dos el lm orbs sites [] m h s hs
    obtain ⟨ms, hms, hlook⟩ := processSite_empty hmac
    rw [gep_singleton, hms]
    simp only [Option.bind_eq_bind, Option.some_bind]
    exact hlook k
  have J := gep_fold_lookup dos el lm orbs sites [] m h
  have hmain : ∀ k, alookup m k = sites.foldl (fun acc s =>
      combineOpt acc ((get_element_pdos dos el [s] lm orbs).bind
        (fun ms => alookup ms k))) none := by
    intro k
    rw [(J k).1]
    exact (foldl_congr_mem sites _ _
      (fun s hs acc => by rw [hsingle s hs k]) none).symm
  refine ⟨hmain, ?_⟩
  intro k v n hlen hpos hall
  rw [hmain k]
  rw [foldl_congr_mem sites _ (fun acc _ => combineOpt acc (some v))
    (fun s hs acc => by rw [hall s hs]) none]
  cases sites with
  | nil => rw [← hlen] at hpos; simp at hpos
  | cons s0 rest =>
    rw [List.foldl_cons]
    have hone : combineOpt none (some v) = some (smulSpin 1 v) := by
      rw [smulSpin_one]
      rfl
    rw [hone, foldl_combine_const v rest 1]
    have : 1 + rest.length = n := by
      rw [← hlen, List.length_cons]
      omega
    rw [this]

/-- Witness for C2 at a concrete input (a one-site selection of `exA`). -/
theorem C2_aggregation_linearity_witness :
    (∀ k, alookup [("s", SpinDens.mk [1] none), ("py", SpinDens.mk [2] none),
        ("pz", SpinDens.mk [3] none), ("px", SpinDens.mk [4] none)] k =
      [0].foldl (fun acc s =>
        combineOpt acc ((get_element_pdos exA "A" [s] (some ["p"])
          (some ["s", "px"])).bind (fun ms => alookup ms k))) none) ∧
    (∀ k v n, ([0] : List ℕ).length = n → 0 < n →
      (∀ s ∈ ([0] : List ℕ), (get_element_pdos exA "A" [s] (some ["p"])
        (some ["s", "px"])).bind (fun ms => alookup ms k) = some v) →
      alookup [("s", SpinDens.mk [1] none), ("py", SpinDens.mk [2] none),
        ("pz", SpinDens.mk [3] none), ("px", SpinDens.mk [4] none)] k =
        some (smulSpin n v)) :=
  C2_aggregation_linearity exA "A" [0] (some ["p"]) (some ["s", "px"])
    [("s", SpinDens.mk [1] none), ("py", SpinDens.mk [2] none),
     ("pz", SpinDens.mk [3] none), ("px", SpinDens.mk [4] none)]
    (by decide)

end SumoDos
